import Mathlib

/-!
Verification of `F1ScoreBreakpoints._evaluate` from
`sktime/performance_metrics/detection/_f1score.py`.

Shallow embedding of the margin-based breakpoint-matching F1 metric.
Breakpoint positions and the margin are modelled as rationals (`ℚ`),
exact stand-ins for the Python numeric values; the sequences of the
`ilocs` columns are modelled as `List ℚ`.

The embedding mirrors the source line by line:
* `sortQ`            — `sorted(...)` on the two input columns;
* `advanceFrom` / `advanceIdx`
                     — the inner `while pred_index < len(pred) and
                       pred[pred_index] < true_bkpt - self.margin` loop
                       (the fuel argument is the loop's termination
                       measure `len(pred) - pred_index`);
* `sweep` / `matchedCount`
                     — the `for true_bkpt in gt` loop accumulating
                       `matched_count`;
* `evaluateSorted`   — the edge cases and the precision/recall/F1
                       arithmetic after sorting;
* `evaluate`         — the whole of `_evaluate`.
-/

namespace F1Breakpoints

/-- Ascending sort of a breakpoint column: `sorted(xs)` in the source. -/
def sortQ (l : List ℚ) : List ℚ := l.insertionSort (· ≤ ·)

/-- The inner while loop, with explicit fuel.  `advanceFrom pred lo fuel i`
advances the cursor `i` while `pred[i] < lo`, taking at most `fuel` steps. -/
def advanceFrom (pred : List ℚ) (lo : ℚ) : ℕ → ℕ → ℕ
  | 0, i => i
  | fuel + 1, i =>
    if h : i < pred.length then
      if pred.get ⟨i, h⟩ < lo then advanceFrom pred lo fuel (i + 1) else i
    else i

/-- The cursor-advancing while loop of the source,
`while pred_index < len(pred) and pred[pred_index] < true_bkpt - margin`,
run with fuel `pred.length - i`, the loop's termination measure, which is
always sufficient. -/
def advanceIdx (pred : List ℚ) (lo : ℚ) (i : ℕ) : ℕ :=
  advanceFrom pred lo (pred.length - i) i

/-- The `for true_bkpt in gt` loop: returns the number of matches counted,
starting from cursor position `i`.  For each ground-truth value `t` the
cursor is advanced while `pred[cursor] < t - margin`, then a match is
counted iff the cursor is in bounds and `|pred[cursor] - t| < margin`;
the cursor is not advanced on a match. -/
def sweep (pred : List ℚ) (margin : ℚ) : List ℚ → ℕ → ℕ
  | [], _ => 0
  | t :: rest, i =>
    let j := advanceIdx pred (t - margin) i
    (if h : j < pred.length then
        if |pred.get ⟨j, h⟩ - t| < margin then 1 else 0
      else 0) + sweep pred margin rest j

/-- The `matched_count` produced by the matching sweep over (already sorted)
`gt` and `pred`, starting at cursor 0. -/
def matchedCount (gt pred : List ℚ) (margin : ℚ) : ℕ :=
  sweep pred margin gt 0

/-- The body of `_evaluate` after the two `sorted(...)` calls: edge cases,
the sweep, and the precision/recall/F1 arithmetic. -/
def evaluateSorted (gt pred : List ℚ) (margin : ℚ) : ℚ :=
  if gt = [] ∧ pred = [] then 1
  else if gt = [] then 0
  else if pred = [] then 0
  else
    let matched : ℚ := matchedCount gt pred margin
    let precisionV : ℚ := matched / pred.length
    let recallV : ℚ := matched / gt.length
    if precisionV + recallV = 0 then 0
    else 2 * precisionV * recallV / (precisionV + recallV)

/-- The whole of `F1ScoreBreakpoints._evaluate`: sort both breakpoint
columns, then score. -/
def evaluate (y_true y_pred : List ℚ) (margin : ℚ) : ℚ :=
  evaluateSorted (sortQ y_true) (sortQ y_pred) margin

/-- The precision value `matched_count / len(pred)` computed by `_evaluate`
on non-empty inputs. -/
def precisionOf (y_true y_pred : List ℚ) (margin : ℚ) : ℚ :=
  (matchedCount (sortQ y_true) (sortQ y_pred) margin : ℚ) / (y_pred.length : ℚ)

/-- The recall value `matched_count / len(gt)` computed by `_evaluate`
on non-empty inputs. -/
def recallOf (y_true y_pred : List ℚ) (margin : ℚ) : ℚ :=
  (matchedCount (sortQ y_true) (sortQ y_pred) margin : ℚ) / (y_true.length : ℚ)

/-- Reference formulation of the cursor advancement, following the spec's
wording of section 4.1 step 3(a), phrased on the not-yet-consumed suffix of
the sorted predicted sequence: predictions strictly below `t - margin` are
discarded (the cursor is advanced past them). -/
def refAdvance (lo : ℚ) : List ℚ → List ℚ
  | [] => []
  | p :: ps => if p < lo then refAdvance lo ps else p :: ps

/-- Reference sweep, following the spec's wording of section 4.1 steps
3(a)-(c) for each ground-truth value `t` in ascending order.  Step (b): a
match is counted iff the cursor is in bounds and
`|predicted[cursor] - t| < margin`, strictly.  Step (c): the cursor is not
advanced after a match, so the same suffix is handed to the next
ground-truth value. -/
def refSweep (margin : ℚ) : List ℚ → List ℚ → ℕ
  | [], _ => 0
  | t :: ts, ps =>
    let ps2 := refAdvance (t - margin) ps
    (match ps2 with
      | [] => 0
      | p :: _ => if |p - t| < margin then 1 else 0) + refSweep margin ts ps2

/-! Properties of the cursor-advancing loop. -/

/-- The cursor never moves backwards. -/
theorem advanceFrom_ge (pred : List ℚ) (lo : ℚ) :
    ∀ f i, i ≤ advanceFrom pred lo f i := by
  intro f
  induction f with
  | zero => intro i; simp [advanceFrom]
  | succ f ih =>
    intro i
    simp only [advanceFrom]
    split
    · split
      · exact le_trans (Nat.le_succ i) (ih (i + 1))
      · exact le_refl i
    · exact le_refl i

/-- The cursor never moves past the end of `pred`. -/
theorem advanceFrom_le (pred : List ℚ) (lo : ℚ) :
    ∀ f i, i ≤ pred.length → advanceFrom pred lo f i ≤ pred.length := by
  intro f
  induction f with
  | zero => intro i hi; simpa [advanceFrom] using hi
  | succ f ih =>
    intro i hi
    simp only [advanceFrom]
    split
    next h =>
      split
      · exact ih (i + 1) h
      · exact hi
    next h => exact hi

/-- With enough fuel, the loop stops only on an element not below `lo`
(or at the end of the list). -/
theorem advanceFrom_stop (pred : List ℚ) (lo : ℚ) :
    ∀ f i j, pred.length ≤ i + f → advanceFrom pred lo f i = j →
      ∀ hj : j < pred.length, ¬ pred.get ⟨j, hj⟩ < lo := by
  intro f
  induction f with
  | zero =>
    intro i j hf hEq hj
    simp only [advanceFrom] at hEq
    omega
  | succ f ih =>
    intro i j hf hEq hj
    simp only [advanceFrom] at hEq
    split at hEq
    next hi =>
      split at hEq
      next hlt => exact ih (i + 1) j (by omega) hEq hj
      next hlt => subst hEq; exact hlt
    next hi => omega

/-- Every position passed over by the loop holds an element below `lo`. -/
theorem advanceFrom_below (pred : List ℚ) (lo : ℚ) :
    ∀ f i j, advanceFrom pred lo f i = j →
      ∀ k, i ≤ k → k < j → ∀ hk : k < pred.length, pred.get ⟨k, hk⟩ < lo := by
  intro f
  induction f with
  | zero =>
    intro i j hEq k hik hkj hk
    simp only [advanceFrom] at hEq
    omega
  | succ f ih =>
    intro i j hEq k hik hkj hk
    simp only [advanceFrom] at hEq
    split at hEq
    next hi =>
      split at hEq
      next hlt =>
        rcases eq_or_lt_of_le hik with rfl | hik2
        · exact hlt
        · exact ih (i + 1) j hEq k hik2 hkj hk
      next hlt => omega
    next hi => omega

/-- Specialisations to `advanceIdx`, whose fuel is always sufficient. -/
theorem advanceIdx_ge (pred : List ℚ) (lo : ℚ) (i : ℕ) :
    i ≤ advanceIdx pred lo i :=
  advanceFrom_ge pred lo _ i

theorem advanceIdx_le (pred : List ℚ) (lo : ℚ) (i : ℕ) (hi : i ≤ pred.length) :
    advanceIdx pred lo i ≤ pred.length :=
  advanceFrom_le pred lo _ i hi

theorem advanceIdx_stop (pred : List ℚ) (lo : ℚ) (i : ℕ)
    (hj : advanceIdx pred lo i < pred.length) :
    ¬ pred.get ⟨advanceIdx pred lo i, hj⟩ < lo :=
  advanceFrom_stop pred lo _ i _ (by omega) rfl hj

theorem advanceIdx_below (pred : List ℚ) (lo : ℚ) (i k : ℕ) (hik : i ≤ k)
    (hkj : k < advanceIdx pred lo i) (hk : k < pred.length) :
    pred.get ⟨k, hk⟩ < lo :=
  advanceFrom_below pred lo _ i _ rfl k hik hkj hk

/-- A run started no further right and with a lower (or equal) threshold
ends no further right. -/
theorem advanceIdx_mono (pred : List ℚ) {lo1 lo2 : ℚ} {i1 i2 : ℕ}
    (hlo : lo2 ≤ lo1) (hi : i2 ≤ i1) (hn : i2 ≤ pred.length) :
    advanceIdx pred lo2 i2 ≤ advanceIdx pred lo1 i1 := by
  by_contra hcon
  push_neg at hcon
  have hj2n : advanceIdx pred lo2 i2 ≤ pred.length := advanceIdx_le pred lo2 i2 hn
  have hj1n : advanceIdx pred lo1 i1 < pred.length := lt_of_lt_of_le hcon hj2n
  have h1 : ¬ pred.get ⟨advanceIdx pred lo1 i1, hj1n⟩ < lo1 :=
    advanceIdx_stop pred lo1 i1 hj1n
  have h2 : pred.get ⟨advanceIdx pred lo1 i1, hj1n⟩ < lo2 :=
    advanceIdx_below pred lo2 i2 _ (le_trans hi (advanceIdx_ge pred lo1 i1)) hcon hj1n
  exact h1 (lt_of_lt_of_le h2 hlo)

/-! Properties of the matching sweep. -/

/-- Each ground-truth value increments the matched count at most once. -/
theorem sweep_le_length (pred : List ℚ) (margin : ℚ) :
    ∀ gt i, sweep pred margin gt i ≤ gt.length := by
  intro gt
  induction gt with
  | nil => intro i; simp [sweep]
  | cons t rest ih =>
    intro i
    simp only [sweep, List.length_cons]
    have h2 := ih (advanceIdx pred (t - margin) i)
    have h1 : (if h : advanceIdx pred (t - margin) i < pred.length then
        if |pred.get ⟨advanceIdx pred (t - margin) i, h⟩ - t| < margin then 1 else 0
      else 0) ≤ 1 := by
      split
      · split <;> omega
      · omega
    omega

/-- The matched count never exceeds the number of ground-truth values. -/
theorem matchedCount_le (gt pred : List ℚ) (margin : ℚ) :
    matchedCount gt pred margin ≤ gt.length :=
  sweep_le_length pred margin gt 0

/-- With `margin = 0` the match test `|pred[j] - t| < 0` never holds,
so the sweep counts nothing. -/
theorem sweep_zero_margin (pred : List ℚ) :
    ∀ gt i, sweep pred 0 gt i = 0 := by
  intro gt
  induction gt with
  | nil => intro i; simp [sweep]
  | cons t rest ih =>
    intro i
    simp only [sweep, ih, Nat.add_zero]
    split
    next h => exact if_neg (not_lt.mpr (abs_nonneg _))
    next h => rfl

/-- Monotonicity of the sweep in the margin, away from the boundary:
as long as no predicted value sits exactly at `t - m2` for a ground-truth
value `t`, widening the margin from `m1` to `m2` loses no match.  The two
runs are compared through their cursors (`i1` for the `m1` run, `i2 ≤ i1`
for the `m2` run). -/
theorem sweep_mono_margin (pred : List ℚ) {m1 m2 : ℚ}
    (hsort : pred.Sorted (· ≤ ·)) (hm : m1 ≤ m2) :
    ∀ gt : List ℚ, (∀ t ∈ gt, ∀ p ∈ pred, p ≠ t - m2) →
      ∀ i1 i2, i2 ≤ i1 → i1 ≤ pred.length →
        sweep pred m1 gt i1 ≤ sweep pred m2 gt i2 := by
  intro gt
  induction gt with
  | nil => intro _ i1 i2 _ _; simp [sweep]
  | cons t rest ih =>
    intro hb i1 i2 h21 h1n
    simp only [sweep]
    have hbt : ∀ p ∈ pred, p ≠ t - m2 := fun p hp => hb t (by simp) p hp
    have hbrest : ∀ t2 ∈ rest, ∀ p ∈ pred, p ≠ t2 - m2 :=
      fun t2 ht2 p hp => hb t2 (by simp [ht2]) p hp
    have hj21 : advanceIdx pred (t - m2) i2 ≤ advanceIdx pred (t - m1) i1 :=
      advanceIdx_mono pred (by linarith) h21 (le_trans h21 h1n)
    have hj1n : advanceIdx pred (t - m1) i1 ≤ pred.length :=
      advanceIdx_le pred (t - m1) i1 h1n
    have hrec := ih hbrest _ _ hj21 hj1n
    have hind : (if h : advanceIdx pred (t - m1) i1 < pred.length then
        if |pred.get ⟨advanceIdx pred (t - m1) i1, h⟩ - t| < m1 then 1 else 0
      else 0) ≤ (if h : advanceIdx pred (t - m2) i2 < pred.length then
        if |pred.get ⟨advanceIdx pred (t - m2) i2, h⟩ - t| < m2 then 1 else 0
      else 0) := by
      split
      next hlt1 =>
        split
        next hmatch1 =>
          have hj2n : advanceIdx pred (t - m2) i2 < pred.length :=
            lt_of_le_of_lt hj21 hlt1
          have hstop : ¬ pred.get ⟨advanceIdx pred (t - m2) i2, hj2n⟩ < t - m2 :=
            advanceIdx_stop pred (t - m2) i2 hj2n
          have hneq : pred.get ⟨advanceIdx pred (t - m2) i2, hj2n⟩ ≠ t - m2 :=
            hbt _ (pred.get_mem _ _)
          have hlow : t - m2 < pred.get ⟨advanceIdx pred (t - m2) i2, hj2n⟩ :=
            lt_of_le_of_ne (not_lt.mp hstop) (Ne.symm hneq)
          have hle : pred.get ⟨advanceIdx pred (t - m2) i2, hj2n⟩ ≤
              pred.get ⟨advanceIdx pred (t - m1) i1, hlt1⟩ :=
            hsort.rel_get_of_le (Fin.mk_le_mk.mpr hj21)
          have habs1 := abs_lt.mp hmatch1
          have habs2 : |pred.get ⟨advanceIdx pred (t - m2) i2, hj2n⟩ - t| < m2 :=
            abs_lt.mpr ⟨by linarith, by linarith⟩
          rw [dif_pos hj2n, if_pos habs2]
        next hmatch1 => exact Nat.zero_le _
      next hlt1 => exact Nat.zero_le _
    omega

/-! Properties of the sort. -/

theorem sortQ_sorted (l : List ℚ) : (sortQ l).Sorted (· ≤ ·) :=
  List.sorted_insertionSort _ l

theorem sortQ_perm (l : List ℚ) : List.Perm (sortQ l) l :=
  List.perm_insertionSort _ l

theorem sortQ_length (l : List ℚ) : (sortQ l).length = l.length :=
  (sortQ_perm l).length_eq

theorem sortQ_eq_nil_iff (l : List ℚ) : sortQ l = [] ↔ l = [] := by
  rw [← List.length_eq_zero, ← List.length_eq_zero, sortQ_length]

theorem mem_sortQ {a : ℚ} {l : List ℚ} : a ∈ sortQ l ↔ a ∈ l :=
  (sortQ_perm l).mem_iff

/-- Sorting is a function of the multiset of entries: permuted inputs
sort to the same list. -/
theorem sortQ_of_perm {l1 l2 : List ℚ} (h : List.Perm l1 l2) : sortQ l1 = sortQ l2 :=
  List.eq_of_perm_of_sorted
    ((sortQ_perm l1).trans (h.trans (sortQ_perm l2).symm))
    (sortQ_sorted l1) (sortQ_sorted l2)

/-! The index-based sweep coincides with the reference sweep on suffixes. -/

/-- Advancing the index cursor corresponds to discarding a prefix of the
remaining suffix. -/
theorem drop_advanceFrom (pred : List ℚ) (lo : ℚ) :
    ∀ f i, pred.length ≤ i + f →
      pred.drop (advanceFrom pred lo f i) = refAdvance lo (pred.drop i) := by
  intro f
  induction f with
  | zero =>
    intro i hf
    have hnil : pred.drop i = [] := List.drop_eq_nil_iff.mpr (by omega)
    simp [advanceFrom, hnil, refAdvance]
  | succ f ih =>
    intro i hf
    simp only [advanceFrom]
    split
    next hi =>
      split
      next hlt =>
        rw [ih (i + 1) (by omega), List.drop_eq_getElem_cons hi]
        rw [List.get_eq_getElem] at hlt
        simp [refAdvance, hlt]
      next hlt =>
        rw [List.drop_eq_getElem_cons hi]
        rw [List.get_eq_getElem] at hlt
        simp [refAdvance, hlt]
    next hi =>
      have hnil : pred.drop i = [] := List.drop_eq_nil_iff.mpr (by omega)
      simp [hnil, refAdvance]

/-- The source's index-cursor sweep equals the reference sweep run on the
not-yet-consumed suffix of `pred`. -/
theorem sweep_eq_refSweep (pred : List ℚ) (margin : ℚ) :
    ∀ gt i, i ≤ pred.length →
      sweep pred margin gt i = refSweep margin gt (pred.drop i) := by
  intro gt
  induction gt with
  | nil => intro i _; simp [sweep, refSweep]
  | cons t rest ih =>
    intro i hi
    simp only [sweep, refSweep]
    have hdrop : pred.drop (advanceIdx pred (t - margin) i) =
        refAdvance (t - margin) (pred.drop i) :=
      drop_advanceFrom pred (t - margin) _ i (by omega)
    rw [← hdrop, ih _ (advanceIdx_le pred (t - margin) i hi)]
    congr 1
    by_cases hjn : advanceIdx pred (t - margin) i < pred.length
    · rw [List.drop_eq_getElem_cons hjn, dif_pos hjn]
      simp [List.get_eq_getElem]
    · have hnil : pred.drop (advanceIdx pred (t - margin) i) = [] :=
        List.drop_eq_nil_iff.mpr (by omega)
      rw [hnil, dif_neg hjn]

/-! Closed form of the F1 arithmetic. -/

/-- On non-empty inputs the harmonic-mean arithmetic of `_evaluate`
collapses to `2 * matched / (|gt| + |pred|)`, including the
`precision + recall == 0` branch. -/
theorem evaluateSorted_eq (gt pred : List ℚ) (margin : ℚ)
    (hg : gt ≠ []) (hp : pred ≠ []) :
    evaluateSorted gt pred margin =
      2 * (matchedCount gt pred margin : ℚ) /
        ((gt.length : ℚ) + (pred.length : ℚ)) := by
  have hgl : (0:ℚ) < gt.length := by exact_mod_cast List.length_pos.mpr hg
  have hpl : (0:ℚ) < pred.length := by exact_mod_cast List.length_pos.mpr hp
  rw [evaluateSorted, if_neg (by rintro ⟨h1, _⟩; exact hg h1), if_neg hg, if_neg hp]
  dsimp only
  by_cases hm : matchedCount gt pred margin = 0
  · rw [hm]
    norm_num
  · have hmq : (0:ℚ) < (matchedCount gt pred margin : ℚ) := by
      exact_mod_cast Nat.pos_of_ne_zero hm
    have hsum : (matchedCount gt pred margin : ℚ) / pred.length +
        (matchedCount gt pred margin : ℚ) / gt.length ≠ 0 :=
      ne_of_gt (by positivity)
    rw [if_neg hsum]
    have hp0 : (pred.length : ℚ) ≠ 0 := ne_of_gt hpl
    have hg0 : (gt.length : ℚ) ≠ 0 := ne_of_gt hgl
    have hm0 : (matchedCount gt pred margin : ℚ) ≠ 0 := ne_of_gt hmq
    field_simp
    ring

/-- Both inputs empty: score `1` by convention. -/
theorem evaluateSorted_nil_nil (margin : ℚ) : evaluateSorted [] [] margin = 1 := by
  rw [evaluateSorted, if_pos ⟨rfl, rfl⟩]

/-- Empty ground truth, non-empty predictions: score `0`. -/
theorem evaluateSorted_nil_left (pred : List ℚ) (margin : ℚ) (hp : pred ≠ []) :
    evaluateSorted [] pred margin = 0 := by
  rw [evaluateSorted, if_neg (by rintro ⟨_, h2⟩; exact hp h2),
    if_pos (show ([] : List ℚ) = [] from rfl)]

/-- Non-empty ground truth, empty predictions: score `0`. -/
theorem evaluateSorted_nil_right (gt : List ℚ) (margin : ℚ) (hg : gt ≠ []) :
    evaluateSorted gt [] margin = 0 := by
  rw [evaluateSorted, if_neg (by rintro ⟨h1, _⟩; exact hg h1), if_neg hg,
    if_pos (show ([] : List ℚ) = [] from rfl)]

/-- The score of `_evaluate` is nonnegative and strictly below `2` on all
inputs. -/
theorem evaluate_bounds (y_true y_pred : List ℚ) (margin : ℚ) :
    0 ≤ evaluate y_true y_pred margin ∧ evaluate y_true y_pred margin < 2 := by
  rw [evaluate]
  by_cases hg : sortQ y_true = []
  · by_cases hp : sortQ y_pred = []
    · rw [hg, hp, evaluateSorted_nil_nil]; norm_num
    · rw [hg, evaluateSorted_nil_left _ _ hp]; norm_num
  · by_cases hp : sortQ y_pred = []
    · rw [hp, evaluateSorted_nil_right _ _ hg]; norm_num
    · rw [evaluateSorted_eq _ _ _ hg hp]
      have hgl : (0:ℚ) < (sortQ y_true).length := by
        exact_mod_cast List.length_pos.mpr hg
      have hpl : (0:ℚ) < (sortQ y_pred).length := by
        exact_mod_cast List.length_pos.mpr hp
      have hmc : (matchedCount (sortQ y_true) (sortQ y_pred) margin : ℚ) ≤
          (sortQ y_true).length := by
        exact_mod_cast matchedCount_le (sortQ y_true) (sortQ y_pred) margin
      have hmc0 : (0:ℚ) ≤ (matchedCount (sortQ y_true) (sortQ y_pred) margin : ℚ) :=
        Nat.cast_nonneg _
      constructor
      · positivity
      · rw [div_lt_iff₀ (by linarith)]
        linarith

/-! Claims. -/

unseal Rat.sub Rat.add Rat.mul Rat.inv in
/-- Claim C1, counterexample: with ground truth `[0, 0]`, predictions `[0]`
and margin `1`, the single prediction matches both ground-truth values, so
`_evaluate` returns `4/3`, outside `[0, 1]`. -/
theorem C1_counterexample :
    (0:ℚ) ≤ 1 ∧ evaluate [0, 0] [0] 1 = 4 / 3 ∧ ¬ evaluate [0, 0] [0] 1 ≤ 1 := by
  decide

/-- Claim C1, amended: for every ground-truth sequence, predicted sequence
and margin `≥ 0`, the value returned by `evaluate` lies in `[0, 2)` — it is
nonnegative and strictly below `2`, but can exceed `1` because one
prediction may match several ground-truth values. -/
theorem C1_score_in_zero_two (y_true y_pred : List ℚ) (margin : ℚ)
    (hm : 0 ≤ margin) :
    0 ≤ evaluate y_true y_pred margin ∧ evaluate y_true y_pred margin < 2 :=
  evaluate_bounds y_true y_pred margin

/-- Witness for C1 at ground truth `[0, 0]`, predictions `[0]`, margin `1`. -/
theorem C1_score_in_zero_two_witness :
    (0:ℚ) ≤ 1 ∧
      (0 ≤ evaluate [0, 0] [0] 1 ∧ evaluate [0, 0] [0] 1 < 2) :=
  ⟨by norm_num, C1_score_in_zero_two [0, 0] [0] 1 (by norm_num)⟩

unseal Rat.sub Rat.add Rat.mul Rat.inv in
/-- Claim C2, counterexample: with ground truth `[0, 0]`, predictions `[0]`
and margin `1` the sweep matches the single prediction twice, so the
matched count is `2 > min 2 1`. -/
theorem C2_counterexample :
    matchedCount (sortQ [0, 0]) (sortQ [0]) 1 = 2 ∧
      ¬ matchedCount (sortQ [0, 0]) (sortQ [0]) 1 ≤
          min (List.length ([0, 0] : List ℚ)) (List.length ([0] : List ℚ)) := by
  decide

/-- Claim C2, amended: for every ground-truth sequence, predicted sequence
and margin `≥ 0`, the matched count satisfies
`0 ≤ matched_count ≤ |ground truth|`; the bound `min(|gt|, |pred|)` fails
because a single prediction can match several ground-truth values. -/
theorem C2_matched_le_gt_length (y_true y_pred : List ℚ) (margin : ℚ)
    (hm : 0 ≤ margin) :
    0 ≤ matchedCount (sortQ y_true) (sortQ y_pred) margin ∧
      matchedCount (sortQ y_true) (sortQ y_pred) margin ≤ y_true.length := by
  refine ⟨Nat.zero_le _, ?_⟩
  have h := matchedCount_le (sortQ y_true) (sortQ y_pred) margin
  rwa [sortQ_length] at h

/-- Witness for C2 at ground truth `[0, 0]`, predictions `[0]`, margin `1`. -/
theorem C2_matched_le_gt_length_witness :
    (0:ℚ) ≤ 1 ∧
      (0 ≤ matchedCount (sortQ [0, 0]) (sortQ [0]) 1 ∧
        matchedCount (sortQ [0, 0]) (sortQ [0]) 1 ≤ List.length ([0, 0] : List ℚ)) :=
  ⟨by norm_num, C2_matched_le_gt_length [0, 0] [0] 1 (by norm_num)⟩

unseal Rat.sub Rat.add Rat.mul Rat.inv in
/-- Claim C3, counterexample: with ground truth `[10]` and predictions
`[5, 10]`, margin `1` scores `2/3` (the cursor passes `5` and matches `10`)
but the larger margin `5` scores `0`: the cursor now stops at `5`, which
sits exactly on the boundary `t - margin = 5` and is not a match, and it
blocks the exact prediction `10`.  The score is not monotone in the
margin. -/
theorem C3_counterexample :
    (1:ℚ) ≤ 5 ∧ evaluate [10] [5, 10] 5 < evaluate [10] [5, 10] 1 := by
  decide

/-- Claim C3, amended: for fixed inputs the score is monotone non-decreasing
from margin `m1` to margin `m2 ≥ m1` provided no predicted value sits
exactly at the boundary `t - m2` of a ground-truth value `t` (at such
boundary configurations the score can decrease, as the counterexample
shows). -/
theorem C3_score_mono_margin (y_true y_pred : List ℚ) (m1 m2 : ℚ)
    (h12 : m1 ≤ m2) (hb : ∀ t ∈ y_true, ∀ p ∈ y_pred, p ≠ t - m2) :
    evaluate y_true y_pred m1 ≤ evaluate y_true y_pred m2 := by
  rw [evaluate, evaluate]
  by_cases hg : sortQ y_true = []
  · by_cases hp : sortQ y_pred = []
    · rw [hg, hp, evaluateSorted_nil_nil, evaluateSorted_nil_nil]
    · rw [hg, evaluateSorted_nil_left _ _ hp, evaluateSorted_nil_left _ _ hp]
  · by_cases hp : sortQ y_pred = []
    · rw [hp, evaluateSorted_nil_right _ _ hg, evaluateSorted_nil_right _ _ hg]
    · rw [evaluateSorted_eq _ _ _ hg hp, evaluateSorted_eq _ _ _ hg hp]
      have hb2 : ∀ t ∈ sortQ y_true, ∀ p ∈ sortQ y_pred, p ≠ t - m2 :=
        fun t ht p hp2 => hb t (mem_sortQ.mp ht) p (mem_sortQ.mp hp2)
      have hmono : matchedCount (sortQ y_true) (sortQ y_pred) m1 ≤
          matchedCount (sortQ y_true) (sortQ y_pred) m2 :=
        sweep_mono_margin (sortQ y_pred) (sortQ_sorted _) h12 (sortQ y_true)
          hb2 0 0 le_rfl (Nat.zero_le _)
      have hgl : (0:ℚ) < (sortQ y_true).length := by
        exact_mod_cast List.length_pos.mpr hg
      have hpl : (0:ℚ) < (sortQ y_pred).length := by
        exact_mod_cast List.length_pos.mpr hp
      gcongr

unseal Rat.sub Rat.add Rat.mul Rat.inv in
/-- Witness for C3 at ground truth `[0]`, predictions `[5]`, margins
`1 ≤ 2` (no prediction equals `t - 2 = -2`). -/
theorem C3_score_mono_margin_witness :
    ((1:ℚ) ≤ 2 ∧ ∀ t ∈ ([0] : List ℚ), ∀ p ∈ ([5] : List ℚ), p ≠ t - 2) ∧
      evaluate [0] [5] 1 ≤ evaluate [0] [5] 2 :=
  ⟨⟨by norm_num, by decide⟩,
    C3_score_mono_margin [0] [5] 1 2 (by norm_num) (by decide)⟩

/-- Claim C4: on non-empty inputs, the matched count computed by
`_evaluate` equals the reference sweep of the spec run over the
ascending-sorted sequences (advance strictly below `t - margin`, match iff
in bounds and `|predicted[cursor] - t| < margin` strictly, no advance after
a match so one prediction may match subsequent ground-truth values). -/
theorem C4_matched_equals_reference (y_true y_pred : List ℚ) (margin : ℚ)
    (h1 : y_true ≠ []) (h2 : y_pred ≠ []) :
    matchedCount (sortQ y_true) (sortQ y_pred) margin =
      refSweep margin (sortQ y_true) (sortQ y_pred) := by
  rw [matchedCount, sweep_eq_refSweep _ _ _ 0 (Nat.zero_le _), List.drop_zero]

/-- Witness for C4 at ground truth `[0, 0]`, predictions `[0]`, margin `1`. -/
theorem C4_matched_equals_reference_witness :
    matchedCount (sortQ [0, 0]) (sortQ [0]) 1 = refSweep 1 (sortQ [0, 0]) (sortQ [0]) :=
  C4_matched_equals_reference [0, 0] [0] 1 (by decide) (by decide)

/-- Claim C5: `evaluate` returns `1` when both sequences are empty and `0`
when exactly one of them is empty, for every margin `≥ 0`. -/
theorem C5_empty_edge_cases (margin : ℚ) (hm : 0 ≤ margin) :
    evaluate [] [] margin = 1 ∧
      (∀ y_pred : List ℚ, y_pred ≠ [] → evaluate [] y_pred margin = 0) ∧
      (∀ y_true : List ℚ, y_true ≠ [] → evaluate y_true [] margin = 0) := by
  have hnil : sortQ ([] : List ℚ) = [] := rfl
  refine ⟨?_, ?_, ?_⟩
  · rw [evaluate, hnil, evaluateSorted_nil_nil]
  · intro yp hyp
    have hp : sortQ yp ≠ [] := fun h => hyp ((sortQ_eq_nil_iff yp).mp h)
    rw [evaluate, hnil, evaluateSorted_nil_left _ _ hp]
  · intro yt hyt
    have hg : sortQ yt ≠ [] := fun h => hyt ((sortQ_eq_nil_iff yt).mp h)
    rw [evaluate, hnil, evaluateSorted_nil_right _ _ hg]

/-- Witness for C5 at margin `1` with the non-empty side `[2]`. -/
theorem C5_empty_edge_cases_witness :
    evaluate [] [] 1 = 1 ∧ evaluate [] [2] 1 = 0 ∧ evaluate [2] [] 1 = 0 := by
  obtain ⟨a, b, c⟩ := C5_empty_edge_cases 1 (by norm_num)
  exact ⟨a, b [2] (by decide), c [2] (by decide)⟩

/-- Claim C6: on non-empty inputs the returned value is the F1 statistic of
`precision = matched / |pred|` and `recall = matched / |gt|`, with the
`precision + recall = 0` guard. -/
theorem C6_f1_from_counts (y_true y_pred : List ℚ) (margin : ℚ)
    (h1 : y_true ≠ []) (h2 : y_pred ≠ []) :
    evaluate y_true y_pred margin =
      if precisionOf y_true y_pred margin + recallOf y_true y_pred margin = 0
      then 0
      else 2 * precisionOf y_true y_pred margin * recallOf y_true y_pred margin /
        (precisionOf y_true y_pred margin + recallOf y_true y_pred margin) := by
  have hg : sortQ y_true ≠ [] := fun h => h1 ((sortQ_eq_nil_iff _).mp h)
  have hp : sortQ y_pred ≠ [] := fun h => h2 ((sortQ_eq_nil_iff _).mp h)
  rw [evaluate, evaluateSorted, if_neg (by rintro ⟨hx, _⟩; exact hg hx),
    if_neg hg, if_neg hp]
  dsimp only
  simp only [precisionOf, recallOf, sortQ_length]

/-- Witness for C6 at ground truth `[5]`, predictions `[5]`, margin `1`. -/
theorem C6_f1_from_counts_witness :
    evaluate [5] [5] 1 =
      if precisionOf [5] [5] 1 + recallOf [5] [5] 1 = 0 then 0
      else 2 * precisionOf [5] [5] 1 * recallOf [5] [5] 1 /
        (precisionOf [5] [5] 1 + recallOf [5] [5] 1) :=
  C6_f1_from_counts [5] [5] 1 (by decide) (by decide)

/-- Claim C7: the score is invariant under permuting either (or both) input
sequences, since `_evaluate` sorts both before matching. -/
theorem C7_perm_invariance (y_true1 y_true2 y_pred1 y_pred2 : List ℚ)
    (margin : ℚ) (hg : List.Perm y_true1 y_true2)
    (hp : List.Perm y_pred1 y_pred2) :
    evaluate y_true1 y_pred1 margin = evaluate y_true2 y_pred2 margin := by
  rw [evaluate, evaluate, sortQ_of_perm hg, sortQ_of_perm hp]

/-- Witness for C7 at the permuted pairs `[2, 1] ~ [1, 2]` and
`[5, 3] ~ [3, 5]`. -/
theorem C7_perm_invariance_witness :
    evaluate [2, 1] [5, 3] 1 = evaluate [1, 2] [3, 5] 1 :=
  C7_perm_invariance [2, 1] [1, 2] [5, 3] [3, 5] 1 (by decide) (by decide)

unseal Rat.sub Rat.add Rat.mul Rat.inv in
/-- Claim C8: `evaluate` is not symmetric — swapping ground truth and
predictions can change the score (here `4/3` against `2/3`). -/
theorem C8_asymmetry :
    ∃ (gt pred : List ℚ) (margin : ℚ),
      evaluate gt pred margin ≠ evaluate pred gt margin :=
  ⟨[0, 0], [0], 1, by decide⟩

/-- Claim C9: with margin `0` the strict match test `|pred[j] - t| < 0` is
unsatisfiable, so nothing matches and non-empty inputs — identical ones
included — score `0`. -/
theorem C9_zero_margin (y_true y_pred : List ℚ)
    (h1 : y_true ≠ []) (h2 : y_pred ≠ []) :
    matchedCount (sortQ y_true) (sortQ y_pred) 0 = 0 ∧
      evaluate y_true y_pred 0 = 0 := by
  have hg : sortQ y_true ≠ [] := fun h => h1 ((sortQ_eq_nil_iff _).mp h)
  have hp : sortQ y_pred ≠ [] := fun h => h2 ((sortQ_eq_nil_iff _).mp h)
  have hmz : matchedCount (sortQ y_true) (sortQ y_pred) 0 = 0 :=
    sweep_zero_margin (sortQ y_pred) (sortQ y_true) 0
  refine ⟨hmz, ?_⟩
  rw [evaluate, evaluateSorted_eq _ _ _ hg hp, hmz]
  norm_num

/-- Witness for C9 at the identical singletons `[3]` and `[3]`. -/
theorem C9_zero_margin_witness :
    matchedCount (sortQ [3]) (sortQ [3]) 0 = 0 ∧ evaluate [3] [3] 0 = 0 :=
  C9_zero_margin [3] [3] (by decide) (by decide)

unseal Rat.sub Rat.add Rat.mul Rat.inv in
/-- Claim C10: the matched count is at most `|ground truth|`, hence the
recall value of `_evaluate` always lies in `[0, 1]` — even though the
precision value can exceed `1` (it does on ground truth `[0, 0]`,
predictions `[0]`, margin `1`). -/
theorem C10_recall_in_unit_interval (y_true y_pred : List ℚ) (margin : ℚ)
    (h1 : y_true ≠ []) :
    matchedCount (sortQ y_true) (sortQ y_pred) margin ≤ y_true.length ∧
      0 ≤ recallOf y_true y_pred margin ∧
      recallOf y_true y_pred margin ≤ 1 ∧
      1 < precisionOf [0, 0] [0] 1 := by
  have hle : matchedCount (sortQ y_true) (sortQ y_pred) margin ≤ y_true.length := by
    have h := matchedCount_le (sortQ y_true) (sortQ y_pred) margin
    rwa [sortQ_length] at h
  have hgl : (0:ℚ) < (y_true.length : ℚ) := by
    exact_mod_cast List.length_pos.mpr h1
  refine ⟨hle, ?_, ?_, ?_⟩
  · rw [recallOf]; positivity
  · rw [recallOf, div_le_one hgl]; exact_mod_cast hle
  · decide

/-- Witness for C10 at ground truth `[0, 0]`, predictions `[0]`, margin `1`. -/
theorem C10_recall_in_unit_interval_witness :
    matchedCount (sortQ [0, 0]) (sortQ [0]) 1 ≤ List.length ([0, 0] : List ℚ) ∧
      0 ≤ recallOf [0, 0] [0] 1 ∧
      recallOf [0, 0] [0] 1 ≤ 1 ∧
      1 < precisionOf [0, 0] [0] 1 :=
  C10_recall_in_unit_interval [0, 0] [0] 1 (by decide)

end F1Breakpoints
